import Mathlib

set_option linter.unusedVariables false

/-! Verification development for the wget-style website mirrorer in
src/main.go.

Go strings are modeled as lists of characters (abbrev Str).  The
path/filepath standard-library functions the program uses (Clean, Join,
Ext, Dir, Rel) are external capabilities of the program; they are modeled
here faithfully to their documented lexical semantics, at the character
level.  The concurrent crawl is modeled as an interleaved trace of the
atomic shared-state operations the source performs (the mutex-guarded
visited check-then-insert, the semaphore-channel send and receive), plus a
sequential executor for whole-run scenarios.  Documents are modeled as the
pre-order sequence of element nodes that the traverse function of
src/main.go (lines 218-223) enumerates; the tree shape itself is never
consulted by collectLinks or rewriteLinks, only the element list.  -/

abbrev Str := List Char

/-! ### Character-level models of the path/filepath capabilities -/

/-- splitSlash splits a character list at every slash; it is the
elementary decomposition both Clean and Ext work through. -/
def splitSlash : Str → List Str
  | [] => [[]]
  | c :: rest =>
    if c = '/' then [] :: splitSlash rest
    else
      match splitSlash rest with
      | [] => [[c]]
      | p :: ps => (c :: p) :: ps

/-- joinParts renders a component list back to a path, separating
components with single slashes. -/
def joinParts : List Str → Str
  | [] => []
  | [p] => p
  | p :: q :: rest => p ++ '/' :: joinParts (q :: rest)

def dotPart : Str := ['.']

def dotDotPart : Str := ['.', '.']

/-- cleanCore is the stack pass of Go filepath.Clean: empty and dot
components are dropped, a dotdot component pops a previous real component,
is dropped at the root of a rooted path, and is kept at the head of an
unrooted path. -/
def cleanCore (rooted : Bool) : List Str → List Str → List Str
  | stk, [] => stk.reverse
  | stk, p :: rest =>
    if p = [] ∨ p = dotPart then cleanCore rooted stk rest
    else if p = dotDotPart then
      match stk with
      | [] => if rooted then cleanCore rooted [] rest else cleanCore rooted [dotDotPart] rest
      | q :: stk2 =>
        if q = dotDotPart then cleanCore rooted (dotDotPart :: q :: stk2) rest
        else cleanCore rooted stk2 rest
    else cleanCore rooted (p :: stk) rest

/-- cleanGo models Go filepath.Clean on slash-separated paths: the empty
path cleans to a dot, a rooted path keeps its leading slash, and an
unrooted path whose components all cancel cleans to a dot. -/
def cleanGo (s : Str) : Str :=
  if s = [] then dotPart
  else if s.head? = some '/' then '/' :: joinParts (cleanCore true [] (splitSlash s))
  else if cleanCore false [] (splitSlash s) = [] then dotPart
  else joinParts (cleanCore false [] (splitSlash s))

/-- join2 models Go filepath.Join on two elements: non-empty elements are
joined with a slash and the result is cleaned; if every element is empty
the result is empty. -/
def join2 (a b : Str) : Str :=
  if a = [] ∧ b = [] then []
  else if a = [] then cleanGo b
  else if b = [] then cleanGo a
  else cleanGo (a ++ '/' :: b)

/-- extCore scans a reversed path from the former end; it stops with the
empty extension at a slash or at exhaustion, and returns the dot together
with the scanned suffix when it meets a dot. -/
def extCore (acc : Str) : Str → Str
  | [] => []
  | c :: rest =>
    if c = '/' then []
    else if c = '.' then '.' :: acc
    else extCore (c :: acc) rest

/-- extGo models Go filepath.Ext: the suffix of the final path element
starting at its final dot, empty when the final element has no dot. -/
def extGo (s : Str) : Str := extCore [] s.reverse

/-- dirGo models Go filepath.Dir: everything up to the final slash,
cleaned; a path without a slash has directory dot. -/
def dirGo (s : Str) : Str :=
  if '/' ∈ s then cleanGo ((s.reverse.dropWhile (fun c => c ≠ '/')).reverse)
  else dotPart

/-- pathComps decomposes an already cleaned path into its rootedness flag
and its component list. -/
def pathComps (s : Str) : Bool × List Str :=
  if s = dotPart then (false, [])
  else if s.head? = some '/' then (true, (splitSlash s).filter (fun p => p ≠ []))
  else (false, splitSlash s)

/-- dropCommon removes the longest common prefix from two component
lists. -/
def dropCommon : List Str → List Str → List Str × List Str
  | a :: as2, b :: bs2 =>
    if a = b then dropCommon as2 bs2 else (a :: as2, b :: bs2)
  | as2, bs2 => (as2, bs2)

/-- relGo models Go filepath.Rel: both paths are cleaned, equal paths are
related by a dot, a rootedness mismatch or a remaining dotdot in the base
is an error, and otherwise the result climbs out of the uncommon base
components and descends into the uncommon target components. -/
def relGo (base targ : Str) : Option Str :=
  if cleanGo base = cleanGo targ then some dotPart
  else if (pathComps (cleanGo base)).1 ≠ (pathComps (cleanGo targ)).1 then none
  else if (dropCommon (pathComps (cleanGo base)).2 (pathComps (cleanGo targ)).2).1.head? =
      some dotDotPart then none
  else some (joinParts
    (List.replicate
        (dropCommon (pathComps (cleanGo base)).2 (pathComps (cleanGo targ)).2).1.length
        dotDotPart ++
      (dropCommon (pathComps (cleanGo base)).2 (pathComps (cleanGo targ)).2).2))

/-! ### The Path Mapper (src/main.go lines 188-194) -/

def indexHtml : Str := ['i', 'n', 'd', 'e', 'x', '.', 'h', 't', 'm', 'l']

/-- makeLocalPath is the Path Mapper of src/main.go lines 188-194: it
joins rootDir with the cleaned URL path, and appends index.html when the
raw URL path is empty, ends in a slash, or the joined path has empty
extension.  Note that the extension test of the source reads the joined
path, rootDir included, and not the URL path alone. -/
def makeLocalPath (rootDir upath : Str) : Str :=
  if upath = [] ∨ upath.getLast? = some '/' ∨
      extGo (join2 rootDir (cleanGo upath)) = [] then
    join2 (join2 rootDir (cleanGo upath)) indexHtml
  else join2 rootDir (cleanGo upath)

/-- specMakeLocalPath restates claim C4 word for word, as a definition to
be compared with makeLocalPath: rootDir is joined with the cleaned URL
path, and index.html is appended exactly when the URL path is empty, ends
in a slash, or has no file extension, the extension being that of the
cleaned URL path itself. -/
def specMakeLocalPath (rootDir upath : Str) : Str :=
  if upath = [] ∨ upath.getLast? = some '/' ∨ extGo (cleanGo upath) = [] then
    join2 (join2 rootDir (cleanGo upath)) indexHtml
  else join2 rootDir (cleanGo upath)

/-! ### URLs -/

/-- UrlR models the fields of net/url URL that the program consults:
scheme, host, path, raw query and fragment. -/
structure UrlR where
  scheme : Str
  host : Str
  path : Str
  query : Str
  fragment : Str
deriving DecidableEq, Repr

/-- urlString models the serialization URL.String() for plain http and
https URLs: scheme, separator, host, path, then the raw query after a
question mark when non-empty and the fragment after a hash mark when
non-empty.  The visited set of the source is keyed by this string
(src/main.go line 104). -/
def urlString (u : UrlR) : Str :=
  u.scheme ++ [':', '/', '/'] ++ u.host ++ u.path ++
    (if u.query = [] then [] else '?' :: u.query) ++
    (if u.fragment = [] then [] else '#' :: u.fragment)

/-- stripFragment erases the fragment component of a URL. -/
def stripFragment (u : UrlR) : UrlR :=
  { u with fragment := [] }

/-! ### The Fetch Unit after the GET (src/main.go lines 119-131)

Claim C1 concerns the code path right after resp, err := d.client.Get.
Per the net/http contract, on a transport (connection-level) error the
returned response is nil; the source then executes
fmt.Printf("HTTP request sent, awaiting response... %s", resp.Status)
at line 121 before ever testing err, and a field access on a nil response
is a runtime panic that kills the whole process.  The response is modeled
as an Option and the nil dereference as the panicked outcome. -/

structure HttpResp where
  status : Nat
deriving DecidableEq, Repr

inductive TaskOutcome where
  | panicked : TaskOutcome
  | errored : TaskOutcome
  | proceed : HttpResp → TaskOutcome
deriving DecidableEq, Repr

/-- afterGet is the shallow embedding of src/main.go lines 119-131: line
121 reads resp.Status unconditionally, so a nil response panics; only
then would err be tested (lines 122-125) and the status compared against
200 (lines 128-131). -/
def afterGet (resp : Option HttpResp) (transportErr : Bool) : TaskOutcome :=
  match resp with
  | none => TaskOutcome.panicked
  | some r =>
    if transportErr then TaskOutcome.errored
    else if r.status ≠ 200 then TaskOutcome.errored
    else TaskOutcome.proceed r

/-! ### The crawl as an executor and as traces

crawlGo executes one complete schedule of the recursive crawl: the task
queue stands for the set of spawned goroutines (a download call at
src/main.go line 94 immediately spawns one), the visited list is the
shared dedup map, and the web function abstracts the network: for a URL
string it yields the resource links and page links that collectLinks
would extract from the fetched document (an empty pair for non-HTML
content).  Each dequeued task replays the body of the goroutine: the
depth guard of line 100, the mutex-atomic visited check-then-insert of
lines 106-112, the fetch of line 119, then spawning of resource children
at the same depth (lines 166-168) and page children at depth+1 (lines
180-182).  The first result component lists the fetches performed, with
the depth of the fetching task; the second lists every task ever
spawned. -/

structure CrawlTask where
  u : UrlR
  depth : Nat
deriving DecidableEq, Repr

def crawlGo (maxDepth : Nat) (web : Str → List UrlR × List UrlR) :
    Nat → List Str → List CrawlTask → List (UrlR × Nat) × List CrawlTask
  | 0, _, _ => ([], [])
  | _ + 1, _, [] => ([], [])
  | fuel + 1, visited, t :: rest =>
    if t.depth > maxDepth then crawlGo maxDepth web fuel visited rest
    else
      let s := urlString t.u
      if s ∈ visited then crawlGo maxDepth web fuel visited rest
      else
        let rp := web s
        let children := rp.1.map (fun r => CrawlTask.mk r t.depth) ++
          rp.2.map (fun p => CrawlTask.mk p (t.depth + 1))
        let out := crawlGo maxDepth web fuel (s :: visited) (children ++ rest)
        ((t.u, t.depth) :: out.1, children ++ out.2)

/-- fetchedUrls is the trace model of the Dedup Tracker: given the
sequence of visited-set claim attempts, in whatever interleaving the
scheduler produced (the mutex of src/main.go lines 106-112 makes each
check-then-insert one atomic event, so every concurrent execution
linearizes to such a sequence), it returns the tasks that passed the
check and therefore performed a fetch.  The key is the full serialized
URL string, exactly as at src/main.go line 104. -/
def fetchedUrls : List Str → List UrlR → List UrlR
  | _, [] => []
  | visited, u :: rest =>
    if urlString u ∈ visited then fetchedUrls visited rest
    else u :: fetchedUrls (urlString u :: visited) rest

/-! ### The Concurrency Limiter as a trace system (src/main.go lines
39 and 114-116)

The semaphore is a buffered channel of capacity cap; a send (acquire)
is only enabled while fewer than cap slots are held, the GET starts only
after the send at line 115 and ends before the deferred receive of line
116 releases the slot.  Events carry the goroutine identifier; semStep
rejects any event not enabled in the current state, and semRun replays a
trace from a state. -/

structure SemState where
  holders : Finset ℕ
  fetching : Finset ℕ
deriving DecidableEq

inductive SemEv where
  | acq : ℕ → SemEv
  | startFetch : ℕ → SemEv
  | endFetch : ℕ → SemEv
  | rel : ℕ → SemEv
deriving DecidableEq, Repr

def semStep (cap : ℕ) (s : SemState) : SemEv → Option SemState
  | SemEv.acq t =>
    if s.holders.card < cap ∧ t ∉ s.holders ∧ t ∉ s.fetching then
      some ⟨insert t s.holders, s.fetching⟩
    else none
  | SemEv.startFetch t =>
    if t ∈ s.holders ∧ t ∉ s.fetching then
      some ⟨s.holders, insert t s.fetching⟩
    else none
  | SemEv.endFetch t =>
    if t ∈ s.fetching then some ⟨s.holders, s.fetching.erase t⟩ else none
  | SemEv.rel t =>
    if t ∈ s.holders ∧ t ∉ s.fetching then
      some ⟨s.holders.erase t, s.fetching⟩
    else none

def semRun (cap : ℕ) : SemState → List SemEv → Option SemState
  | s, [] => some s
  | s, e :: rest =>
    match semStep cap s e with
    | none => none
    | some s2 => semRun cap s2 rest

/-! ### Documents: the Link Classifier and the Link Rewriter

A document is the pre-order list of its element nodes; each element has a
tag name and an ordered attribute list, as exposed by the tree capability.
The resolve parameter models the URL capability call base.Parse(value)
for the fixed base URL of the document: it returns the resolved absolute
URL, or none when parsing fails. -/

structure Elem where
  tag : Str
  attrs : List (Str × Str)
deriving DecidableEq, Repr

abbrev Doc := List Elem

def strA : Str := ['a']
def strLink : Str := ['l', 'i', 'n', 'k']
def strScript : Str := ['s', 'c', 'r', 'i', 'p', 't']
def strImg : Str := ['i', 'm', 'g']
def strHref : Str := ['h', 'r', 'e', 'f']
def strSrc : Str := ['s', 'r', 'c']
def strHttp : Str := ['h', 't', 't', 'p']
def strHttps : Str := ['h', 't', 't', 'p', 's']

/-- collectTagKey is the tag switch of collectLinks (src/main.go lines
237-247): anchors contribute page links through href, link elements
resource links through href, script and img elements resource links
through src. -/
def collectTagKey (tag : Str) : Option (Str × Bool) :=
  if tag = strA then some (strHref, true)
  else if tag = strLink then some (strHref, false)
  else if tag = strScript ∨ tag = strImg then some (strSrc, false)
  else none

/-- inheritScheme is src/main.go lines 259-261: an empty resolved scheme
inherits the base scheme. -/
def inheritScheme (baseScheme : Str) (u : UrlR) : UrlR :=
  if u.scheme = [] then { u with scheme := baseScheme } else u

/-- keepFilter is the host and scheme filter plus fragment strip of
src/main.go lines 263-266, applied to an already resolved URL. -/
def keepFilter (baseScheme host : Str) (abs0 : UrlR) : Option UrlR :=
  if (inheritScheme baseScheme abs0).host ≠ host ∨
      ((inheritScheme baseScheme abs0).scheme ≠ strHttp ∧
        (inheritScheme baseScheme abs0).scheme ≠ strHttps) then none
  else some { inheritScheme baseScheme abs0 with fragment := [] }

/-- keepLink is the per-value filter of collectLinks (src/main.go lines
255-266): resolve the value against the base, inherit the base scheme
when the scheme is empty, keep the URL only when its host is the mirror
host and its scheme is http or https, and strip the fragment. -/
def keepLink (resolve : Str → Option UrlR) (baseScheme host v : Str) : Option UrlR :=
  match resolve v with
  | none => none
  | some abs0 => keepFilter baseScheme host abs0

/-- findLink is the attribute loop of collectLinks (src/main.go lines
249-275): skip attributes with the wrong key, skip values that fail to
parse or fail the host and scheme filter, and stop at the first kept
link. -/
def findLink (resolve : Str → Option UrlR) (baseScheme host ak : Str) :
    List (Str × Str) → Option UrlR
  | [] => none
  | (k, v) :: rest =>
    if k = ak then
      match keepLink resolve baseScheme host v with
      | some u => some u
      | none => findLink resolve baseScheme host ak rest
    else findLink resolve baseScheme host ak rest

/-- elemLinks is the contribution of one element to the two link lists. -/
def elemLinks (resolve : Str → Option UrlR) (baseScheme host : Str) (e : Elem) :
    List UrlR × List UrlR :=
  match collectTagKey e.tag with
  | none => ([], [])
  | some (ak, isPage) =>
    match findLink resolve baseScheme host ak e.attrs with
    | none => ([], [])
    | some u => if isPage then ([], [u]) else ([u], [])

/-- collectLinks is the Link Classifier of src/main.go lines 225-279,
over the pre-order element sequence of the document: the first result
lists resource links, the second page links. -/
def collectLinks (resolve : Str → Option UrlR) (baseScheme host : Str) :
    Doc → List UrlR × List UrlR
  | [] => ([], [])
  | e :: rest =>
    let h := elemLinks resolve baseScheme host e
    let t := collectLinks resolve baseScheme host rest
    (h.1 ++ t.1, h.2 ++ t.2)

/-- rewriteTagKey is the tag switch of rewriteLinks (src/main.go lines
288-295): anchors and link elements through href, script and img
elements through src. -/
def rewriteTagKey (tag : Str) : Option Str :=
  if tag = strA ∨ tag = strLink then some strHref
  else if tag = strScript ∨ tag = strImg then some strSrc
  else none

/-- rewriteOne is the per-value logic of rewriteLinks (src/main.go lines
303-318): resolve the value against the base; on a parse failure or a
host mismatch leave it alone; otherwise map the target URL through the
Path Mapper and take the relative path from the directory of the current
local path, leaving the value alone when Rel fails. -/
def rewriteOne (resolve : Str → Option UrlR) (host rootDir curr v : Str) : Option Str :=
  match resolve v with
  | none => none
  | some abs =>
    if abs.host ≠ host then none
    else
      match relGo (dirGo curr) (makeLocalPath rootDir abs.path) with
      | none => none
      | some rp => some rp

/-- rewriteAttrs is the attribute loop of rewriteLinks (src/main.go lines
297-320): attributes with the wrong key pass through, values that fail
resolution, the host filter or Rel pass through, and the first rewritten
attribute ends the loop, the remaining attributes passing through
untouched. -/
def rewriteAttrs (resolve : Str → Option UrlR) (host rootDir curr ak : Str) :
    List (Str × Str) → List (Str × Str)
  | [] => []
  | (k, v) :: rest =>
    if k = ak then
      match rewriteOne resolve host rootDir curr v with
      | some rp => (k, rp) :: rest
      | none => (k, v) :: rewriteAttrs resolve host rootDir curr ak rest
    else (k, v) :: rewriteAttrs resolve host rootDir curr ak rest

/-- rewriteElem applies the attribute loop to one element, skipping
elements whose tag has no recognized attribute key. -/
def rewriteElem (resolve : Str → Option UrlR) (host rootDir curr : Str) (e : Elem) : Elem :=
  match rewriteTagKey e.tag with
  | none => e
  | some ak => ⟨e.tag, rewriteAttrs resolve host rootDir curr ak e.attrs⟩

/-- rewriteLinks is the Link Rewriter of src/main.go lines 281-322 over
the pre-order element sequence of the document. -/
def rewriteLinks (resolve : Str → Option UrlR) (host rootDir curr : Str) (doc : Doc) : Doc :=
  doc.map (rewriteElem resolve host rootDir curr)

/-! ### Claim C2: at-most-once fetching -/

def cexHost : Str := ['h']

/-- cexSeed is a start URL carrying a fragment: https scheme, host h,
root path, fragment s.  The source never strips the fragment of the
start URL (src/main.go lines 67-77), only of discovered links
(src/main.go line 266). -/
def cexSeed : UrlR := ⟨strHttps, cexHost, ['/'], [], ['s']⟩

/-- cexSelf is the same resource without a fragment, as a discovered
self link would be returned by collectLinks. -/
def cexSelf : UrlR := ⟨strHttps, cexHost, ['/'], [], []⟩

/-- cexWeb serves one page whose only link is a fragment-free link to
itself. -/
def cexWeb : Str → List UrlR × List UrlR := fun s =>
  if s = urlString cexSeed then ([], [cexSelf])
  else if s = urlString cexSelf then ([], [cexSelf])
  else ([], [])

/-! ### Claim C3: depth-bounded task creation -/

def c3Seed : UrlR := ⟨strHttps, cexHost, ['/'], [], []⟩

def c3Page : UrlR := ⟨strHttps, cexHost, ['/', 'p'], [], []⟩

/-- c3Web serves one page containing one page link. -/
def c3Web : Str → List UrlR × List UrlR := fun s =>
  if s = urlString c3Seed then ([], [c3Page]) else ([], [])

/-! ### Claim C9: bounded concurrent fetches -/

/-- semInv is the inductive invariant of the semaphore system: every
fetching goroutine holds a slot, and at most cap slots are held. -/
def semInv (cap : ℕ) (s : SemState) : Prop :=
  s.fetching ⊆ s.holders ∧ s.holders.card ≤ cap

def c7Val : Str := ['/', 'p']

def c7Doc : Doc := [⟨strA, [(strHref, c7Val)]⟩]

/-- c7Resolve resolves the single attribute value to a scheme-less URL,
exercising the base-scheme inheritance branch. -/
def c7Resolve : Str → Option UrlR := fun v =>
  if v = c7Val then some ⟨[], cexHost, ['/', 'p'], [], []⟩ else none

def u7 : UrlR := ⟨strHttps, cexHost, ['/', 'p'], [], []⟩

def c8Val : Str := ['/', 'q']

/-- c8Resolve resolves the attribute value to an off-host URL. -/
def c8Resolve : Str → Option UrlR := fun v =>
  if v = c8Val then some ⟨strHttps, ['x'], ['/', 'q'], [], []⟩ else none

def c10Curr : Str := cexHost ++ '/' :: indexHtml

def c10Val : Str := ['#', 's']

/-- c10Resolve models resolving the pure in-page anchor value against
the base https://h/ : the current page URL with fragment s. -/
def c10Resolve : Str → Option UrlR := fun v =>
  if v = c10Val then some ⟨strHttps, cexHost, ['/'], [], ['s']⟩ else none

/-! ### Path algebra: well-formed components

A component is well formed when it is non-empty, slash-free, and neither
the dot nor the dotdot segment; the components of every cleaned rooted
path are well formed, and on well-formed components the path functions
obey the algebra the claims about the Path Mapper and the Link Rewriter
need. -/

def wfc (p : Str) : Prop :=
  p ≠ [] ∧ '/' ∉ p ∧ p ≠ dotPart ∧ p ≠ dotDotPart

instance (p : Str) : Decidable (wfc p) := by
  unfold wfc
  infer_instance

def wfComps (l : List Str) : Prop := ∀ p ∈ l, wfc p

instance (l : List Str) : Decidable (wfComps l) := by
  unfold wfComps
  infer_instance

def c6u1 : UrlR := ⟨strHttps, cexHost, ['/', 's', '.', 'c'], ['1'], []⟩

def c6u2 : UrlR := ⟨strHttps, cexHost, ['/', 's', '.', 'c'], ['2'], []⟩

/-! ### The Rel and Join roundtrip (claim C5)

Paths on the mirror disk are unrooted slash-joined component lists; the
empty list renders as the dot directory.  The roundtrip lemma below is
the algebraic heart of the rewrite-correctness claim: joining a document
directory with the Rel-path from that directory to a target reproduces
the target exactly. -/

def renderRel (l : List Str) : Str :=
  if l = [] then dotPart else joinParts l

def c5Curr : Str := ['h', '/', 'a', '/'] ++ indexHtml

def c5Val : Str := ['/', 'b', '.', 'c']

def c5Abs : UrlR := ⟨strHttps, cexHost, ['/', 'b', '.', 'c'], [], []⟩

/-- c5Resolve resolves the single attribute value of the witness
document to a same-host stylesheet URL. -/
def c5Resolve : Str → Option UrlR := fun v =>
  if v = c5Val then some c5Abs else none

/-! ### Claim C1: transport failure handling -/

/-- theorem for claim C1 (code_bug evaluation).  The claim says a
transport failure moves the task to Errored: logged, clean termination,
no retry, no crash.  The code instead dereferences the nil response at
src/main.go line 121 before testing err, so a connection-level failure
panics the process rather than producing the clean Errored outcome. -/
theorem transport_error_panics_not_errored :
    afterGet none true = TaskOutcome.panicked ∧
      afterGet none true ≠ TaskOutcome.errored := by
  constructor
  · rfl
  · intro h
    cases h

/-- counterexample for claim C2.  The visited set is keyed by the full
serialized URL string, fragment included, so a run started at
https://h/#s fetches that resource and then fetches https://h/ again
through the discovered self link: the same fragment-stripped URL is
fetched twice in one run. -/
theorem fragment_seed_double_fetch :
    (((crawlGo 1 cexWeb 5 [] [⟨cexSeed, 0⟩]).1.map
        (fun f => urlString (stripFragment f.1))).count
      (urlString (stripFragment cexSeed))) = 2 := by decide

lemma fetchedUrls_mem : ∀ (l : List UrlR) (visited : List Str) (u : UrlR),
    u ∈ fetchedUrls visited l → u ∈ l := by
  intro l
  induction l with
  | nil => intro visited u h; exact absurd h (by simp [fetchedUrls])
  | cons a rest ih =>
    intro visited u h
    by_cases hv : urlString a ∈ visited
    · simp only [fetchedUrls, if_pos hv] at h
      exact List.mem_cons_of_mem _ (ih _ _ h)
    · simp only [fetchedUrls, if_neg hv, List.mem_cons] at h
      rcases h with h | h
      · exact h ▸ List.mem_cons_self _ _
      · exact List.mem_cons_of_mem _ (ih _ _ h)

lemma fetchedUrls_count_zero : ∀ (l : List UrlR) (visited : List Str) (k : Str),
    k ∈ visited → ((fetchedUrls visited l).map urlString).count k = 0 := by
  intro l
  induction l with
  | nil => intro visited k hk; simp [fetchedUrls]
  | cons a rest ih =>
    intro visited k hk
    by_cases hv : urlString a ∈ visited
    · simp only [fetchedUrls, if_pos hv]
      exact ih _ _ hk
    · have hne : urlString a ≠ k := fun h => hv (h ▸ hk)
      simp only [fetchedUrls, if_neg hv, List.map_cons, List.count_cons]
      rw [ih (urlString a :: visited) k (List.mem_cons_of_mem _ hk)]
      simp [hne]

lemma fetchedUrls_count_le_one : ∀ (l : List UrlR) (visited : List Str) (k : Str),
    ((fetchedUrls visited l).map urlString).count k ≤ 1 := by
  intro l
  induction l with
  | nil => intro visited k; simp [fetchedUrls]
  | cons a rest ih =>
    intro visited k
    by_cases hv : urlString a ∈ visited
    · simp only [fetchedUrls, if_pos hv]
      exact ih _ _
    · simp only [fetchedUrls, if_neg hv, List.map_cons, List.count_cons]
      by_cases hk : urlString a = k
      · rw [fetchedUrls_count_zero rest (urlString a :: visited) k
          (hk ▸ List.mem_cons_self _ _)]
        simp [hk]
      · simpa [hk] using ih (urlString a :: visited) k

/-- theorem for claim C2 as amended.  In any interleaving of the
mutex-atomic check-then-insert events (the attempts list), a run all of
whose task URLs are fragment-free, which holds whenever the start URL
carries no fragment since collectLinks strips fragments from every
discovered link, fetches each fragment-stripped URL at most once. -/
theorem visited_set_fetch_at_most_once (attempts : List UrlR)
    (hfrag : ∀ u ∈ attempts, u.fragment = []) (v : UrlR) :
    (((fetchedUrls [] attempts).map
        (fun u => urlString (stripFragment u))).count
      (urlString (stripFragment v))) ≤ 1 := by
  have hmap : (fetchedUrls [] attempts).map (fun u => urlString (stripFragment u)) =
      (fetchedUrls [] attempts).map urlString := by
    apply List.map_congr_left
    intro a ha
    have hfa : a.fragment = [] := hfrag a (fetchedUrls_mem attempts [] a ha)
    have : stripFragment a = a := by
      cases a with
      | mk sc ho pa qu fr => simp only [stripFragment] at *; simp [hfa]
    rw [this]
  rw [hmap]
  exact fetchedUrls_count_le_one attempts [] (urlString (stripFragment v))

/-- witness for visited_set_fetch_at_most_once at a concrete
fragment-free attempt list containing a duplicate. -/
theorem visited_set_fetch_at_most_once_witness :
    (((fetchedUrls [] [cexSelf, cexSelf]).map
        (fun u => urlString (stripFragment u))).count
      (urlString (stripFragment cexSelf))) ≤ 1 :=
  visited_set_fetch_at_most_once [cexSelf, cexSelf] (by decide) cexSelf

/-- counterexample for claim C3.  With max depth 0, the task for the
discovered page link is nevertheless spawned at depth 1 (src/main.go
lines 180-182 call download unconditionally, which immediately creates
the goroutine at lines 96-97); the depth guard only runs inside the
spawned task at line 100.  So a task with depth greater than the max
depth is created, refuting the never-spawned part of the claim. -/
theorem page_task_spawned_beyond_max_depth :
    ¬ (∀ t ∈ (crawlGo 0 c3Web 3 [] [⟨c3Seed, 0⟩]).2, t.depth ≤ 0) := by
  decide

/-- theorem for claim C3 as amended.  Tasks beyond the max depth may be
spawned, but the guard at src/main.go line 100 makes every such task
return before the visited check and before any fetch: no fetch is ever
performed by a task whose depth exceeds the max depth, in any run of
the executor. -/
theorem no_fetch_beyond_max_depth (maxDepth : Nat)
    (web : Str → List UrlR × List UrlR) :
    ∀ (fuel : Nat) (visited : List Str) (tasks : List CrawlTask)
      (u : UrlR) (d : Nat),
      (u, d) ∈ (crawlGo maxDepth web fuel visited tasks).1 → d ≤ maxDepth := by
  intro fuel
  induction fuel with
  | zero =>
    intro visited tasks u d h
    simp [crawlGo] at h
  | succ n ih =>
    intro visited tasks u d h
    cases tasks with
    | nil => simp [crawlGo] at h
    | cons t rest =>
      by_cases hd : t.depth > maxDepth
      · simp only [crawlGo, if_pos hd] at h
        exact ih _ _ _ _ h
      · simp only [crawlGo, if_neg hd] at h
        by_cases hv : urlString t.u ∈ visited
        · rw [if_pos hv] at h
          exact ih _ _ _ _ h
        · rw [if_neg hv] at h
          simp only [List.mem_cons] at h
          rcases h with h | h
          · have : d = t.depth := (Prod.mk.injEq _ _ _ _).mp h |>.2
            omega
          · exact ih _ _ _ _ h

/-- witness for no_fetch_beyond_max_depth: in the concrete run of the
C3 scenario the seed fetch happens at depth 0, within the bound. -/
theorem no_fetch_beyond_max_depth_witness : (0 : Nat) ≤ 0 :=
  no_fetch_beyond_max_depth 0 c3Web 3 [] [⟨c3Seed, 0⟩] c3Seed 0 (by decide)

lemma semStep_inv {cap : ℕ} {s s2 : SemState} {e : SemEv}
    (hinv : semInv cap s) (hstep : semStep cap s e = some s2) :
    semInv cap s2 := by
  obtain ⟨hsub, hcard⟩ := hinv
  cases e with
  | acq t =>
    simp only [semStep] at hstep
    split at hstep
    · rename_i hc
      obtain ⟨hlt, hnh, _⟩ := hc
      cases hstep
      constructor
      · exact hsub.trans (Finset.subset_insert _ _)
      · rw [Finset.card_insert_of_not_mem hnh]
        omega
    · exact absurd hstep (by simp)
  | startFetch t =>
    simp only [semStep] at hstep
    split at hstep
    · rename_i hc
      cases hstep
      constructor
      · exact Finset.insert_subset hc.1 hsub
      · exact hcard
    · exact absurd hstep (by simp)
  | endFetch t =>
    simp only [semStep] at hstep
    split at hstep
    · cases hstep
      constructor
      · exact (Finset.erase_subset _ _).trans hsub
      · exact hcard
    · exact absurd hstep (by simp)
  | rel t =>
    simp only [semStep] at hstep
    split at hstep
    · rename_i hc
      cases hstep
      constructor
      · exact (Finset.subset_erase).mpr ⟨hsub, hc.2⟩
      · exact le_trans (Finset.card_le_card (Finset.erase_subset _ _)) hcard
    · exact absurd hstep (by simp)

lemma semRun_inv {cap : ℕ} : ∀ (evs : List SemEv) (s s2 : SemState),
    semInv cap s → semRun cap s evs = some s2 → semInv cap s2 := by
  intro evs
  induction evs with
  | nil =>
    intro s s2 hinv hrun
    simp only [semRun, Option.some.injEq] at hrun
    exact hrun ▸ hinv
  | cons e rest ih =>
    intro s s2 hinv hrun
    simp only [semRun] at hrun
    cases hstep : semStep cap s e with
    | none => rw [hstep] at hrun; cases hrun
    | some s1 =>
      rw [hstep] at hrun
      exact ih s1 s2 (semStep_inv hinv hstep) hrun

/-- theorem for claim C9.  In every valid trace of the semaphore system
started from the empty state, the number of in-flight fetches in the
reached state never exceeds the configured capacity: a goroutine sends
on the capacity-cap channel (src/main.go line 115) before issuing its
GET at line 119 and receives from it afterwards (line 116), so the
in-flight fetches are always among the at most cap slot holders. -/
theorem fetches_in_flight_bounded (cap : ℕ) (evs : List SemEv) (s : SemState)
    (hrun : semRun cap ⟨∅, ∅⟩ evs = some s) : s.fetching.card ≤ cap := by
  have hinv : semInv cap s :=
    semRun_inv evs ⟨∅, ∅⟩ s ⟨Finset.Subset.refl _, by simp⟩ hrun
  exact le_trans (Finset.card_le_card hinv.1) hinv.2

/-- witness for fetches_in_flight_bounded on a concrete two-goroutine
trace at capacity 1. -/
theorem fetches_in_flight_bounded_witness :
    (SemState.mk ∅ ∅).fetching.card ≤ 1 :=
  fetches_in_flight_bounded 1
    [SemEv.acq 0, SemEv.startFetch 0, SemEv.endFetch 0, SemEv.rel 0,
      SemEv.acq 1, SemEv.startFetch 1, SemEv.endFetch 1, SemEv.rel 1]
    ⟨∅, ∅⟩ (by decide)

/-! ### Claim C7: collectLinks output filtering -/

lemma keepFilter_props {baseScheme host : Str} {abs0 u : UrlR}
    (h : keepFilter baseScheme host abs0 = some u) :
    u.host = host ∧ (u.scheme = strHttp ∨ u.scheme = strHttps) ∧ u.fragment = [] := by
  unfold keepFilter at h
  by_cases hc : (inheritScheme baseScheme abs0).host ≠ host ∨
      ((inheritScheme baseScheme abs0).scheme ≠ strHttp ∧
        (inheritScheme baseScheme abs0).scheme ≠ strHttps)
  · rw [if_pos hc] at h; cases h
  · rw [if_neg hc] at h
    push_neg at hc
    obtain ⟨h1, h2⟩ := hc
    cases h
    refine ⟨h1, ?_, rfl⟩
    by_cases hs : (inheritScheme baseScheme abs0).scheme = strHttp
    · exact Or.inl hs
    · exact Or.inr (h2 hs)

lemma keepLink_props {resolve : Str → Option UrlR} {baseScheme host v : Str} {u : UrlR}
    (h : keepLink resolve baseScheme host v = some u) :
    u.host = host ∧ (u.scheme = strHttp ∨ u.scheme = strHttps) ∧ u.fragment = [] := by
  unfold keepLink at h
  cases hres : resolve v with
  | none => rw [hres] at h; cases h
  | some abs0 =>
    rw [hres] at h
    exact keepFilter_props h

lemma findLink_props {resolve : Str → Option UrlR} {baseScheme host ak : Str} :
    ∀ (attrs : List (Str × Str)) (u : UrlR),
      findLink resolve baseScheme host ak attrs = some u →
      u.host = host ∧ (u.scheme = strHttp ∨ u.scheme = strHttps) ∧ u.fragment = [] := by
  intro attrs
  induction attrs with
  | nil => intro u h; cases h
  | cons q rest ih =>
    intro u h
    obtain ⟨k, v⟩ := q
    simp only [findLink] at h
    split at h
    · cases hk : keepLink resolve baseScheme host v with
      | none => rw [hk] at h; exact ih u h
      | some u2 =>
        rw [hk] at h
        cases h
        exact keepLink_props hk
    · exact ih u h

lemma elemLinks_props {resolve : Str → Option UrlR} {baseScheme host : Str} (e : Elem)
    (u : UrlR)
    (h : u ∈ (elemLinks resolve baseScheme host e).1 ++ (elemLinks resolve baseScheme host e).2) :
    u.host = host ∧ (u.scheme = strHttp ∨ u.scheme = strHttps) ∧ u.fragment = [] := by
  unfold elemLinks at h
  cases hkey : collectTagKey e.tag with
  | none => rw [hkey] at h; simp at h
  | some p =>
    rw [hkey] at h
    obtain ⟨ak, isPage⟩ := p
    simp only at h
    cases hf : findLink resolve baseScheme host ak e.attrs with
    | none => rw [hf] at h; simp at h
    | some u2 =>
      rw [hf] at h
      cases isPage with
      | true =>
        simp at h
        exact h ▸ findLink_props e.attrs u2 hf
      | false =>
        simp at h
        exact h ▸ findLink_props e.attrs u2 hf

lemma elemLinks_len {resolve : Str → Option UrlR} {baseScheme host : Str} (e : Elem) :
    (elemLinks resolve baseScheme host e).1.length +
      (elemLinks resolve baseScheme host e).2.length ≤ 1 := by
  unfold elemLinks
  cases collectTagKey e.tag with
  | none => simp
  | some p =>
    obtain ⟨ak, isPage⟩ := p
    simp only
    cases findLink resolve baseScheme host ak e.attrs with
    | none => simp
    | some u => cases isPage <;> simp

lemma collectLinks_mem_props {resolve : Str → Option UrlR} {baseScheme host : Str} :
    ∀ (doc : Doc) (u : UrlR),
      u ∈ (collectLinks resolve baseScheme host doc).1 ++
        (collectLinks resolve baseScheme host doc).2 →
      u.host = host ∧ (u.scheme = strHttp ∨ u.scheme = strHttps) ∧ u.fragment = [] := by
  intro doc
  induction doc with
  | nil => intro u h; simp [collectLinks] at h
  | cons e rest ih =>
    intro u h
    simp only [collectLinks, List.mem_append] at h
    rcases h with (h2 | h2) | (h2 | h2)
    · exact elemLinks_props e u (List.mem_append.mpr (Or.inl h2))
    · exact ih u (List.mem_append.mpr (Or.inl h2))
    · exact elemLinks_props e u (List.mem_append.mpr (Or.inr h2))
    · exact ih u (List.mem_append.mpr (Or.inr h2))

lemma collectLinks_len {resolve : Str → Option UrlR} {baseScheme host : Str} :
    ∀ (doc : Doc),
      (collectLinks resolve baseScheme host doc).1.length +
        (collectLinks resolve baseScheme host doc).2.length ≤ doc.length := by
  intro doc
  induction doc with
  | nil => simp [collectLinks]
  | cons e rest ih =>
    simp only [collectLinks, List.length_append, List.length_cons]
    have := @elemLinks_len resolve baseScheme host e
    omega

lemma findLink_none_of_no_key {resolve : Str → Option UrlR} {baseScheme host ak : Str} :
    ∀ (attrs : List (Str × Str)), (∀ q ∈ attrs, q.1 ≠ ak) →
      findLink resolve baseScheme host ak attrs = none := by
  intro attrs
  induction attrs with
  | nil => intro _; rfl
  | cons q rest ih =>
    intro hno
    obtain ⟨k, v⟩ := q
    have hk : k ≠ ak := hno (k, v) (List.mem_cons_self _ _)
    simp only [findLink, if_neg hk]
    exact ih (fun q hq => hno q (List.mem_cons_of_mem _ hq))

lemma findLink_first_match {resolve : Str → Option UrlR} {baseScheme host ak v : Str} :
    ∀ (pre post : List (Str × Str)), (∀ q ∈ pre ++ post, q.1 ≠ ak) →
      findLink resolve baseScheme host ak (pre ++ (ak, v) :: post) =
        keepLink resolve baseScheme host v := by
  intro pre
  induction pre with
  | nil =>
    intro post hno
    have hrest : findLink resolve baseScheme host ak post = none :=
      findLink_none_of_no_key post (fun q hq => hno q (by simpa using hq))
    cases hk : keepLink resolve baseScheme host v with
    | none => simp [findLink, hk, hrest]
    | some u => simp [findLink, hk]
  | cons q pre2 ih =>
    intro post hno
    obtain ⟨k, w⟩ := q
    have hk : k ≠ ak := hno (k, w) (List.mem_cons_self _ _)
    simp only [List.cons_append, findLink, if_neg hk]
    exact ih post (fun q hq => hno q (List.mem_cons_of_mem _ hq))

/-- theorem for claim C7.  Every URL returned by collectLinks, in either
list, has the mirror host, scheme http or https (the base scheme having
been inherited when the resolved scheme was empty), and an empty
fragment; each element contributes at most one link overall; and on an
element whose recognized attribute key occurs exactly once, the
contributed link is the one obtained from the value of that first
matching attribute. -/
theorem collect_links_filtered (resolve : Str → Option UrlR)
    (baseScheme host : Str) (doc : Doc) :
    (∀ u, u ∈ (collectLinks resolve baseScheme host doc).1 ++
        (collectLinks resolve baseScheme host doc).2 →
      u.host = host ∧ (u.scheme = strHttp ∨ u.scheme = strHttps) ∧ u.fragment = []) ∧
    ((collectLinks resolve baseScheme host doc).1.length +
      (collectLinks resolve baseScheme host doc).2.length ≤ doc.length) ∧
    (∀ e ∈ doc, ∀ ak isPage, collectTagKey e.tag = some (ak, isPage) →
      ∀ pre v post, e.attrs = pre ++ (ak, v) :: post →
      (∀ q ∈ pre ++ post, q.1 ≠ ak) →
      findLink resolve baseScheme host ak e.attrs =
        keepLink resolve baseScheme host v) := by
  refine ⟨fun u h => collectLinks_mem_props doc u h, collectLinks_len doc, ?_⟩
  intro e he ak isPage hkey pre v post hattrs hno
  rw [hattrs]
  exact findLink_first_match pre post hno

/-- witness for collect_links_filtered on a one-element document. -/
theorem collect_links_filtered_witness :
    (u7.host = cexHost ∧ (u7.scheme = strHttp ∨ u7.scheme = strHttps) ∧
      u7.fragment = []) ∧
    ((collectLinks c7Resolve strHttps cexHost c7Doc).1.length +
      (collectLinks c7Resolve strHttps cexHost c7Doc).2.length ≤ c7Doc.length) ∧
    (findLink c7Resolve strHttps cexHost strHref ((⟨strA, [(strHref, c7Val)]⟩ : Elem).attrs) =
      keepLink c7Resolve strHttps cexHost c7Val) :=
  ⟨(collect_links_filtered c7Resolve strHttps cexHost c7Doc).1 u7 (by decide),
    (collect_links_filtered c7Resolve strHttps cexHost c7Doc).2.1,
    (collect_links_filtered c7Resolve strHttps cexHost c7Doc).2.2
      ⟨strA, [(strHref, c7Val)]⟩ (by decide) strHref true (by decide)
      [] c7Val [] rfl (by decide)⟩

/-! ### Claim C8: unresolvable and off-host attributes untouched -/

lemma rewriteOne_none_of_bad {resolve : Str → Option UrlR} {host rootDir curr v : Str}
    (hbad : resolve v = none ∨ ∀ u, resolve v = some u → u.host ≠ host) :
    rewriteOne resolve host rootDir curr v = none := by
  unfold rewriteOne
  cases hres : resolve v with
  | none => rfl
  | some abs =>
    rcases hbad with hbad | hbad
    · rw [hres] at hbad; cases hbad
    · simp only
      rw [if_pos (hbad abs hres)]

lemma rewriteAttrs_preserve {resolve : Str → Option UrlR} {host rootDir curr ak : Str} :
    ∀ (attrs : List (Str × Str)) (j : Nat) (k v : Str),
      attrs[j]? = some (k, v) →
      (resolve v = none ∨ ∀ u, resolve v = some u → u.host ≠ host) →
      (rewriteAttrs resolve host rootDir curr ak attrs)[j]? = some (k, v) := by
  intro attrs
  induction attrs with
  | nil => intro j k v h _; simp at h
  | cons q rest ih =>
    intro j k v h hbad
    obtain ⟨k0, v0⟩ := q
    cases j with
    | zero =>
      simp only [List.getElem?_cons_zero, Option.some.injEq] at h
      have hk : k0 = k := ((Prod.mk.injEq _ _ _ _).mp h).1
      have hv : v0 = v := ((Prod.mk.injEq _ _ _ _).mp h).2
      subst hk hv
      simp only [rewriteAttrs]
      split
      · rw [rewriteOne_none_of_bad hbad]
        simp only [List.getElem?_cons_zero]
      · simp only [List.getElem?_cons_zero]
    | succ j2 =>
      simp only [List.getElem?_cons_succ] at h
      simp only [rewriteAttrs]
      split
      · cases hone : rewriteOne resolve host rootDir curr v0 with
        | none => simp only [List.getElem?_cons_succ]; exact ih j2 k v h hbad
        | some rp => simp only [List.getElem?_cons_succ]; exact h
      · simp only [List.getElem?_cons_succ]
        exact ih j2 k v h hbad

/-- theorem for claim C8.  Every attribute whose value fails to resolve
against the base URL, or resolves to a host other than the mirror host,
is byte-identical before and after rewriteLinks: the source skips it at
src/main.go lines 303-307, and an attribute further right than a
rewritten one is also left untouched by the break at line 319. -/
theorem offhost_attrs_untouched (resolve : Str → Option UrlR)
    (host rootDir curr : Str) (doc : Doc) (i j : Nat) (tag : Str)
    (attrs : List (Str × Str)) (k v : Str)
    (he : doc[i]? = some ⟨tag, attrs⟩)
    (ha : attrs[j]? = some (k, v))
    (hbad : resolve v = none ∨ ∀ u, resolve v = some u → u.host ≠ host) :
    ∃ attrs2, (rewriteLinks resolve host rootDir curr doc)[i]? = some ⟨tag, attrs2⟩ ∧
      attrs2[j]? = some (k, v) := by
  cases hkey : rewriteTagKey tag with
  | none =>
    refine ⟨attrs, ?_, ha⟩
    simp only [rewriteLinks, List.getElem?_map, he, Option.map_some', rewriteElem, hkey]
  | some ak =>
    refine ⟨rewriteAttrs resolve host rootDir curr ak attrs, ?_,
      rewriteAttrs_preserve attrs j k v ha hbad⟩
    simp only [rewriteLinks, List.getElem?_map, he, Option.map_some', rewriteElem, hkey]

/-- witness for offhost_attrs_untouched on a one-element document whose
single href resolves off-host. -/
theorem offhost_attrs_untouched_witness :
    ∃ attrs2,
      (rewriteLinks c8Resolve cexHost cexHost
          (cexHost ++ ['/'] ++ indexHtml) [⟨strA, [(strHref, c8Val)]⟩])[0]? =
        some ⟨strA, attrs2⟩ ∧ attrs2[0]? = some (strHref, c8Val) :=
  offhost_attrs_untouched c8Resolve cexHost cexHost
    (cexHost ++ ['/'] ++ indexHtml) [⟨strA, [(strHref, c8Val)]⟩] 0 0 strA
    [(strHref, c8Val)] strHref c8Val rfl rfl
    (Or.inr (fun u hu => by
      rw [show c8Resolve c8Val = some ⟨strHttps, ['x'], ['/', 'q'], [], []⟩ from by decide] at hu
      cases hu
      decide))

/-! ### Claim C10: fragments are dropped by the rewriter -/

lemma rewriteAttrs_first_match {resolve : Str → Option UrlR}
    {host rootDir curr ak v rp : Str}
    (hone : rewriteOne resolve host rootDir curr v = some rp) :
    ∀ (pre post : List (Str × Str)), (∀ q ∈ pre, q.1 ≠ ak) →
      rewriteAttrs resolve host rootDir curr ak (pre ++ (ak, v) :: post) =
        pre ++ (ak, rp) :: post := by
  intro pre
  induction pre with
  | nil =>
    intro post _
    simp [rewriteAttrs, hone]
  | cons q pre2 ih =>
    intro post hno
    obtain ⟨k0, v0⟩ := q
    have hk : k0 ≠ ak := hno (k0, v0) (List.mem_cons_self _ _)
    simp only [List.cons_append, rewriteAttrs, if_neg hk]
    exact congrArg (List.cons (k0, v0)) (ih post (fun q hq => hno q (List.mem_cons_of_mem _ hq)))

/-- theorem for claim C10.  An attribute resolving to a same-host URL
with a non-empty fragment (a pure in-page anchor included) is replaced
by the bare relative file path alone: the replacement value is the
Rel-path to the Path Mapper output for the path of the URL, the same
local path the fragment-stripped URL maps to, and no fragment is
re-appended, so in-page anchor targets are lost. -/
theorem fragment_dropped_in_rewrite (resolve : Str → Option UrlR)
    (host rootDir curr : Str) (doc : Doc) (i : Nat) (tag ak v rp : Str)
    (pre post : List (Str × Str)) (abs : UrlR)
    (he : doc[i]? = some ⟨tag, pre ++ (ak, v) :: post⟩)
    (hkey : rewriteTagKey tag = some ak)
    (hpre : ∀ q ∈ pre, q.1 ≠ ak)
    (hres : resolve v = some abs)
    (hhost : abs.host = host)
    (hfrag : abs.fragment ≠ [])
    (hrel : relGo (dirGo curr) (makeLocalPath rootDir abs.path) = some rp) :
    (rewriteLinks resolve host rootDir curr doc)[i]? =
        some ⟨tag, pre ++ (ak, rp) :: post⟩ ∧
      makeLocalPath rootDir abs.path =
        makeLocalPath rootDir (stripFragment abs).path := by
  constructor
  · have hone : rewriteOne resolve host rootDir curr v = some rp := by
      simp [rewriteOne, hres, hhost, hrel]
    simp only [rewriteLinks, List.getElem?_map, he, Option.map_some', rewriteElem, hkey]
    rw [rewriteAttrs_first_match hone pre post hpre]
  · rfl

/-- witness for fragment_dropped_in_rewrite: the in-page anchor href
pointing at fragment s of the current page is rewritten to the bare
relative path index.html, losing the anchor. -/
theorem fragment_dropped_in_rewrite_witness :
    (rewriteLinks c10Resolve cexHost cexHost c10Curr
        [⟨strA, [(strHref, c10Val)]⟩])[0]? =
      some ⟨strA, [] ++ (strHref, indexHtml) :: []⟩ ∧
      makeLocalPath cexHost (⟨strHttps, cexHost, ['/'], [], ['s']⟩ : UrlR).path =
        makeLocalPath cexHost
          (stripFragment ⟨strHttps, cexHost, ['/'], [], ['s']⟩).path :=
  fragment_dropped_in_rewrite c10Resolve cexHost cexHost c10Curr
    [⟨strA, [(strHref, c10Val)]⟩] 0 strA strHref c10Val indexHtml [] []
    ⟨strHttps, cexHost, ['/'], [], ['s']⟩
    rfl (by decide) (by simp) rfl rfl (by decide) (by decide)

lemma splitSlash_ne_nil : ∀ (s : Str), splitSlash s ≠ [] := by
  intro s
  induction s with
  | nil => simp [splitSlash]
  | cons c rest ih =>
    by_cases hc : c = '/'
    · simp [splitSlash, if_pos hc]
    · simp only [splitSlash, if_neg hc]
      cases hsp : splitSlash rest with
      | nil => simp
      | cons q qs => simp

lemma splitSlash_mem_noslash : ∀ (s : Str) (p : Str), p ∈ splitSlash s → '/' ∉ p := by
  intro s
  induction s with
  | nil =>
    intro p hp
    simp only [splitSlash, List.mem_singleton] at hp
    subst hp
    simp
  | cons c rest ih =>
    intro p hp
    by_cases hc : c = '/'
    · simp only [splitSlash, if_pos hc, List.mem_cons] at hp
      rcases hp with hp | hp
      · subst hp; simp
      · exact ih p hp
    · simp only [splitSlash, if_neg hc] at hp
      cases hsp : splitSlash rest with
      | nil => exact absurd hsp (splitSlash_ne_nil rest)
      | cons q qs =>
        rw [hsp] at hp
        simp only [List.mem_cons] at hp
        rcases hp with hp | hp
        · subst hp
          intro hmem
          rcases List.mem_cons.mp hmem with h | h
          · exact hc h.symm
          · exact ih q (hsp ▸ List.mem_cons_self _ _) h
        · exact ih p (hsp ▸ List.mem_cons_of_mem _ hp)

lemma splitSlash_noslash {p : Str} (h : '/' ∉ p) : splitSlash p = [p] := by
  induction p with
  | nil => rfl
  | cons c rest ih =>
    have hc : c ≠ '/' := fun hcc => h (hcc ▸ List.mem_cons_self _ _)
    have hrest : '/' ∉ rest := fun hm => h (List.mem_cons_of_mem _ hm)
    simp only [splitSlash, if_neg hc, ih hrest]

lemma splitSlash_append_slash : ∀ (a b : Str),
    splitSlash (a ++ '/' :: b) = splitSlash a ++ splitSlash b := by
  intro a
  induction a with
  | nil => intro b; simp [splitSlash]
  | cons c rest ih =>
    intro b
    show splitSlash (c :: (rest ++ '/' :: b)) = splitSlash (c :: rest) ++ splitSlash b
    by_cases hc : c = '/'
    · simp only [splitSlash, if_pos hc, ih, List.cons_append]
    · simp only [splitSlash, if_neg hc, ih]
      cases hsp : splitSlash rest with
      | nil => exact absurd hsp (splitSlash_ne_nil rest)
      | cons q qs => simp

lemma joinParts_cons {p : Str} {rest : List Str} (h : rest ≠ []) :
    joinParts (p :: rest) = p ++ '/' :: joinParts rest := by
  cases rest with
  | nil => exact absurd rfl h
  | cons q qs => rfl

lemma joinParts_ne_nil : ∀ (l : List Str), l ≠ [] → (∀ p ∈ l, p ≠ []) →
    joinParts l ≠ [] := by
  intro l hl hp
  cases l with
  | nil => exact absurd rfl hl
  | cons p rest =>
    cases rest with
    | nil => exact hp p (List.mem_cons_self _ _)
    | cons q qs =>
      show p ++ '/' :: joinParts (q :: qs) ≠ []
      simp

lemma splitSlash_joinParts : ∀ (l : List Str), l ≠ [] → (∀ p ∈ l, '/' ∉ p) →
    splitSlash (joinParts l) = l := by
  intro l
  induction l with
  | nil => intro h _; exact absurd rfl h
  | cons p rest ih =>
    intro _ hns
    cases rest with
    | nil => exact splitSlash_noslash (hns p (List.mem_cons_self _ _))
    | cons q qs =>
      rw [joinParts_cons (by simp), splitSlash_append_slash,
        splitSlash_noslash (hns p (List.mem_cons_self _ _)),
        ih (by simp) (fun r hr => hns r (List.mem_cons_of_mem _ hr))]
      rfl

lemma joinParts_inj {l1 l2 : List Str} (h1 : ∀ p ∈ l1, p ≠ [] ∧ '/' ∉ p)
    (h2 : ∀ p ∈ l2, p ≠ [] ∧ '/' ∉ p) (heq : joinParts l1 = joinParts l2) :
    l1 = l2 := by
  cases l1 with
  | nil =>
    cases l2 with
    | nil => rfl
    | cons q qs =>
      exact absurd heq.symm (joinParts_ne_nil (q :: qs) (by simp)
        (fun p hp => (h2 p hp).1))
  | cons p ps =>
    cases l2 with
    | nil =>
      exact absurd heq (joinParts_ne_nil (p :: ps) (by simp)
        (fun r hr => (h1 r hr).1))
    | cons q qs =>
      have e1 : splitSlash (joinParts (p :: ps)) = p :: ps :=
        splitSlash_joinParts (p :: ps) (by simp) (fun r hr => (h1 r hr).2)
      have e2 : splitSlash (joinParts (q :: qs)) = q :: qs :=
        splitSlash_joinParts (q :: qs) (by simp) (fun r hr => (h2 r hr).2)
      rw [← e1, ← e2, heq]

lemma joinParts_append : ∀ (l1 l2 : List Str), l1 ≠ [] → l2 ≠ [] →
    joinParts (l1 ++ l2) = joinParts l1 ++ '/' :: joinParts l2 := by
  intro l1
  induction l1 with
  | nil => intro l2 h _; exact absurd rfl h
  | cons p ps ih =>
    intro l2 _ h2
    cases ps with
    | nil =>
      cases l2 with
      | nil => exact absurd rfl h2
      | cons q qs => rfl
    | cons r rs =>
      have hne : (r :: rs) ++ l2 ≠ [] := by simp
      rw [List.cons_append, joinParts_cons hne, joinParts_cons (by simp : r :: rs ≠ ([] : List Str)),
        ih l2 (by simp) h2]
      simp

lemma joinParts_head_cons (c : Char) (p2 : Str) (rest : List Str) :
    (joinParts ((c :: p2) :: rest)).head? = some c := by
  cases rest with
  | nil => rfl
  | cons q qs => rfl

lemma cleanCore_push_wf : ∀ (parts1 : List Str), (∀ p ∈ parts1, wfc p) →
    ∀ (rooted : Bool) (stk rest : List Str),
      cleanCore rooted stk (parts1 ++ rest) =
        cleanCore rooted (parts1.reverse ++ stk) rest := by
  intro parts1
  induction parts1 with
  | nil => intro _ rooted stk rest; simp
  | cons p ps ih =>
    intro hwf rooted stk rest
    have hp := hwf p (List.mem_cons_self _ _)
    have h1 : ¬(p = [] ∨ p = dotPart) := fun h => h.elim hp.1 hp.2.2.1
    have h2 : p ≠ dotDotPart := hp.2.2.2
    rw [List.cons_append]
    simp only [cleanCore, if_neg h1, if_neg h2]
    rw [ih (fun q hq => hwf q (List.mem_cons_of_mem _ hq)) rooted (p :: stk) rest]
    congr 1
    simp

lemma cleanCore_wf_eval {parts : List Str} (h : ∀ p ∈ parts, wfc p) (rooted : Bool) :
    cleanCore rooted [] parts = parts := by
  have h2 := cleanCore_push_wf parts h rooted [] []
  simpa [cleanCore] using h2

lemma cleanCore_pop : ∀ (rb : List Str), (∀ q ∈ rb, wfc q) →
    ∀ (stk rest : List Str),
      cleanCore false (rb ++ stk) (List.replicate rb.length dotDotPart ++ rest) =
        cleanCore false stk rest := by
  intro rb
  induction rb with
  | nil => intro _ stk rest; simp
  | cons q rb2 ih =>
    intro hwf stk rest
    have hq := hwf q (List.mem_cons_self _ _)
    rw [List.length_cons, List.replicate_succ, List.cons_append, List.cons_append]
    simp only [cleanCore]
    rw [if_neg (show ¬(dotDotPart = [] ∨ dotDotPart = dotPart) by decide)]
    simp only [if_true, if_pos rfl]
    rw [if_neg hq.2.2.2]
    exact ih (fun r hr => hwf r (List.mem_cons_of_mem _ hr)) stk rest

lemma cleanCore_out_wf : ∀ (parts : List Str) (stk : List Str),
    (∀ q ∈ stk, wfc q) → (∀ p ∈ parts, '/' ∉ p) →
    ∀ q ∈ cleanCore true stk parts, wfc q := by
  intro parts
  induction parts with
  | nil =>
    intro stk hstk _ q hq
    simp only [cleanCore] at hq
    exact hstk q (List.mem_reverse.mp hq)
  | cons p ps ih =>
    intro stk hstk hns q hq
    by_cases h1 : p = [] ∨ p = dotPart
    · simp only [cleanCore, if_pos h1] at hq
      exact ih stk hstk (fun r hr => hns r (List.mem_cons_of_mem _ hr)) q hq
    · by_cases h2 : p = dotDotPart
      · cases stk with
        | nil =>
          simp only [cleanCore, if_neg h1, if_pos h2, if_true] at hq
          exact ih [] (by simp) (fun r hr => hns r (List.mem_cons_of_mem _ hr)) q hq
        | cons s stk2 =>
          have hs : s ≠ dotDotPart := (hstk s (List.mem_cons_self _ _)).2.2.2
          simp only [cleanCore, if_neg h1, if_pos h2, if_neg hs] at hq
          exact ih stk2 (fun r hr => hstk r (List.mem_cons_of_mem _ hr))
            (fun r hr => hns r (List.mem_cons_of_mem _ hr)) q hq
      · simp only [cleanCore, if_neg h1, if_neg h2] at hq
        have hp : wfc p := ⟨fun h => h1 (Or.inl h), hns p (List.mem_cons_self _ _),
          fun h => h1 (Or.inr h), h2⟩
        exact ih (p :: stk)
          (fun r hr => (List.mem_cons.mp hr).elim (fun e => e ▸ hp) (hstk r))
          (fun r hr => hns r (List.mem_cons_of_mem _ hr)) q hq

lemma cleanCore_skip_nil (rooted : Bool) (stk rest : List Str) :
    cleanCore rooted stk ([] :: rest) = cleanCore rooted stk rest := by
  simp only [cleanCore]
  rw [if_pos (Or.inl trivial)]

lemma cleanGo_fixed_unrooted {l : List Str} (hwf : wfComps l) (hne : l ≠ []) :
    cleanGo (joinParts l) = joinParts l := by
  have hnn : joinParts l ≠ [] := joinParts_ne_nil l hne (fun p hp => (hwf p hp).1)
  have hhead : ¬((joinParts l).head? = some '/') := by
    cases l with
    | nil => exact absurd rfl hne
    | cons p rest =>
      have hp := hwf p (List.mem_cons_self _ _)
      cases p with
      | nil => exact absurd rfl hp.1
      | cons c p2 =>
        rw [joinParts_head_cons]
        intro h
        have hc : c = '/' := by injection h
        exact hp.2.1 (hc ▸ List.mem_cons_self _ _)
  have hsplit : splitSlash (joinParts l) = l :=
    splitSlash_joinParts l hne (fun p hp => (hwf p hp).2.1)
  unfold cleanGo
  rw [if_neg hnn, if_neg hhead, hsplit, cleanCore_wf_eval hwf, if_neg hne]

lemma cleanGo_fixed_rooted {l : List Str} (hwf : wfComps l) :
    cleanGo ('/' :: joinParts l) = '/' :: joinParts l := by
  cases hl : l with
  | nil => decide
  | cons p rest =>
    rw [← hl]
    have hne : l ≠ [] := by rw [hl]; simp
    have hsplit : splitSlash ('/' :: joinParts l) = [] :: l := by
      show (if ('/' : Char) = '/' then [] :: splitSlash (joinParts l)
        else _) = [] :: l
      rw [if_pos rfl, splitSlash_joinParts l hne (fun p hp => (hwf p hp).2.1)]
    unfold cleanGo
    rw [if_neg (by simp),
      if_pos (show (('/' : Char) :: joinParts l).head? = some '/' by simp),
      hsplit, cleanCore_skip_nil, cleanCore_wf_eval hwf]

lemma cleanGo_rooted_shape {s : Str} (hhead : s.head? = some '/') :
    ∃ w, cleanGo s = '/' :: joinParts w ∧ wfComps w := by
  have hne : s ≠ [] := by
    intro h
    rw [h] at hhead
    cases hhead
  refine ⟨cleanCore true [] (splitSlash s), ?_, ?_⟩
  · unfold cleanGo
    rw [if_neg hne, if_pos hhead]
  · exact cleanCore_out_wf (splitSlash s) [] (by simp)
      (fun p hp => splitSlash_mem_noslash s p hp)

lemma extCore_append_slash : ∀ (rb acc ra : Str),
    extCore acc (rb ++ '/' :: ra) = extCore acc rb := by
  intro rb
  induction rb with
  | nil =>
    intro acc ra
    simp [extCore]
  | cons c rb2 ih =>
    intro acc ra
    by_cases hc : c = '/'
    · simp only [List.cons_append, extCore, if_pos hc]
    · by_cases hd : c = '.'
      · simp only [List.cons_append, extCore, if_neg hc, if_pos hd]
      · simp only [List.cons_append, extCore, if_neg hc, if_neg hd]
        exact ih (c :: acc) ra

lemma extGo_append_slash (a b : Str) : extGo (a ++ '/' :: b) = extGo b := by
  unfold extGo
  rw [List.reverse_append, List.reverse_cons, List.append_assoc,
    List.singleton_append, extCore_append_slash]

lemma join2_wf_root {root : Str} (hr : wfc root) {l : List Str}
    (hwf : wfComps l) (hne : l ≠ []) :
    join2 root ('/' :: joinParts l) = joinParts (root :: l) := by
  have hs : splitSlash (root ++ '/' :: '/' :: joinParts l) = root :: [] :: l := by
    rw [splitSlash_append_slash, splitSlash_noslash hr.2.1]
    have h0 : splitSlash ('/' :: joinParts l) = [] :: l := by
      show (if ('/' : Char) = '/' then [] :: splitSlash (joinParts l) else _) = [] :: l
      rw [if_pos rfl, splitSlash_joinParts l hne (fun p hp => (hwf p hp).2.1)]
    rw [h0]
    rfl
  have hwfrl : wfComps (root :: l) := by
    intro q hq
    rcases List.mem_cons.mp hq with h | h
    · exact h ▸ hr
    · exact hwf q h
  have hcore : cleanCore false [] (splitSlash (root ++ '/' :: '/' :: joinParts l)) =
      root :: l := by
    rw [hs]
    have h1 := cleanCore_push_wf [root] (by
      intro p hp
      simp only [List.mem_singleton] at hp
      exact hp ▸ hr) false [] ([] :: l)
    simp only [List.singleton_append, List.reverse_singleton, List.append_nil] at h1
    rw [h1, cleanCore_skip_nil]
    have h2 := cleanCore_push_wf l hwf false [root] []
    simp only [List.append_nil] at h2
    rw [h2]
    simp [cleanCore]
  have hrne : root ≠ [] := hr.1
  have hbne : ('/' :: joinParts l : Str) ≠ [] := by simp
  have hhead : ¬((root ++ '/' :: '/' :: joinParts l).head? = some '/') := by
    cases root with
    | nil => exact absurd rfl hrne
    | cons c p2 =>
      simp only [List.cons_append, List.head?_cons]
      intro h
      have hc : c = '/' := by injection h
      exact hr.2.1 (hc ▸ List.mem_cons_self _ _)
  unfold join2
  rw [if_neg (fun h => hrne h.1), if_neg hrne, if_neg hbne]
  unfold cleanGo
  rw [if_neg (by
      cases root with
      | nil => exact absurd rfl hrne
      | cons c p2 => simp), if_neg hhead, hcore,
    if_neg (by simp)]

lemma join2_jp {l1 l2 : List Str} (h1 : wfComps l1) (h2 : wfComps l2)
    (hn1 : l1 ≠ []) (hn2 : l2 ≠ []) :
    join2 (joinParts l1) (joinParts l2) = joinParts (l1 ++ l2) := by
  have ha : joinParts l1 ≠ [] := joinParts_ne_nil l1 hn1 (fun p hp => (h1 p hp).1)
  have hb : joinParts l2 ≠ [] := joinParts_ne_nil l2 hn2 (fun p hp => (h2 p hp).1)
  unfold join2
  rw [if_neg (fun h => ha h.1), if_neg ha, if_neg hb,
    ← joinParts_append l1 l2 hn1 hn2]
  exact cleanGo_fixed_unrooted (fun p hp =>
    (List.mem_append.mp hp).elim (h1 p) (h2 p))
    (fun h => hn1 (List.append_eq_nil.mp h).1)

lemma cleanCore_skip_dot (rooted : Bool) (stk rest : List Str) :
    cleanCore rooted stk (dotPart :: rest) = cleanCore rooted stk rest := by
  simp only [cleanCore]
  rw [if_pos (Or.inr trivial)]

lemma cleanGo_unrooted {s : Str} (hne : s ≠ []) (hhead : ¬(s.head? = some '/')) :
    cleanGo s = if cleanCore false [] (splitSlash s) = [] then dotPart
      else joinParts (cleanCore false [] (splitSlash s)) := by
  unfold cleanGo
  rw [if_neg hne, if_neg hhead]

lemma join2_pos {a b : Str} (ha : a ≠ []) (hb : b ≠ []) :
    join2 a b = cleanGo (a ++ '/' :: b) := by
  unfold join2
  rw [if_neg (fun h => ha h.1), if_neg ha, if_neg hb]

lemma joinParts_head_ne_slash {p : Str} (rest : List Str) (hp : p ≠ [])
    (hns : '/' ∉ p) : ¬((joinParts (p :: rest)).head? = some '/') := by
  cases p with
  | nil => exact absurd rfl hp
  | cons c p2 =>
    rw [joinParts_head_cons]
    intro h
    have hc : c = '/' := by injection h
    exact hns (hc ▸ List.mem_cons_self _ _)

/-- counterexample for claim C4.  The claim reads the extension off the
URL path, but src/main.go line 190 reads it off the rootDir-joined path:
for the URL path consisting of a slash and a dot (reachable as the path
of a start URL such as https://e.c/.), the cleaned path is the bare
slash, the joined path collapses to the rootDir e.c whose extension .c
is non-empty, so the source does not append index.html, while the claim
requires it to. -/
theorem spec_local_path_differs :
    specMakeLocalPath ['e', '.', 'c'] ['/', '.'] ≠
      makeLocalPath ['e', '.', 'c'] ['/', '.'] := by
  decide

/-- theorem for claim C4 as amended.  The extension test of the source
consults the rootDir-joined path, which agrees with the extension of the
cleaned URL path whenever the cleaned URL path keeps at least one real
component (so the name of rootDir cannot bleed into the extension):
for every URL path that is empty, or is rooted and does not clean to the
bare slash, the Path Mapper behaves exactly as the claim describes. -/
theorem local_path_matches_claim (root p : Str) (hr : wfc root)
    (hp : p = [] ∨ (p.head? = some '/' ∧ cleanGo p ≠ ['/'])) :
    specMakeLocalPath root p = makeLocalPath root p := by
  rcases hp with hp | ⟨hp, hcl⟩
  · subst hp
    simp [specMakeLocalPath, makeLocalPath]
  · obtain ⟨w, hw, hwfw⟩ := cleanGo_rooted_shape hp
    have hwne : w ≠ [] := by
      intro h
      rw [h] at hw
      exact hcl hw
    have hjoin : join2 root (cleanGo p) = joinParts (root :: w) := by
      rw [hw]
      exact join2_wf_root hr hwfw hwne
    have hext1 : extGo (join2 root (cleanGo p)) = extGo (joinParts w) := by
      rw [hjoin, joinParts_cons hwne, extGo_append_slash]
    have hext2 : extGo (cleanGo p) = extGo (joinParts w) := by
      rw [hw]
      have h3 := extGo_append_slash [] (joinParts w)
      simpa using h3
    unfold specMakeLocalPath makeLocalPath
    rw [hext1, hext2]

/-- witness for local_path_matches_claim at the rooted path slash-a. -/
theorem local_path_matches_claim_witness :
    specMakeLocalPath ['e', '.', 'c'] ['/', 'a'] =
      makeLocalPath ['e', '.', 'c'] ['/', 'a'] :=
  local_path_matches_claim ['e', '.', 'c'] ['/', 'a'] (by decide)
    (Or.inr ⟨rfl, by decide⟩)

lemma wfc_indexHtml : wfc indexHtml := by decide

lemma wfComps_cons {p : Str} {l : List Str} (hp : wfc p) (hl : wfComps l) :
    wfComps (p :: l) := by
  intro q hq
  rcases List.mem_cons.mp hq with h | h
  · exact h ▸ hp
  · exact hl q h

lemma wfComps_append {l1 l2 : List Str} (h1 : wfComps l1) (h2 : wfComps l2) :
    wfComps (l1 ++ l2) := by
  intro q hq
  rcases List.mem_append.mp hq with h | h
  · exact h1 q h
  · exact h2 q h

lemma join2_root_slash {root : Str} (hr : wfc root) : join2 root ['/'] = root := by
  rw [join2_pos hr.1 (by simp)]
  have hs : splitSlash (root ++ '/' :: ['/']) = [root, [], []] := by
    rw [splitSlash_append_slash, splitSlash_noslash hr.2.1]
    rfl
  have hhead : ¬((root ++ '/' :: ['/']).head? = some '/') := by
    cases hroot : root with
    | nil => exact absurd hroot hr.1
    | cons c p2 =>
      simp only [List.cons_append, List.head?_cons]
      intro h
      have hc : c = '/' := by injection h
      have hr2 := hr.2.1
      rw [hroot] at hr2
      exact hr2 (hc ▸ List.mem_cons_self _ _)
  rw [cleanGo_unrooted (fun h => hr.1 (List.append_eq_nil.mp h).1) hhead, hs]
  have hcore : cleanCore false [] [root, [], []] = [root] := by
    rw [show ([root, [], []] : List Str) = [root] ++ [[], []] from rfl,
      cleanCore_push_wf [root] (by
        intro q hq
        simp only [List.mem_singleton] at hq
        exact hq ▸ hr) false [] [[], []],
      cleanCore_skip_nil, cleanCore_skip_nil]
    simp [cleanCore]
  rw [hcore, if_neg (by simp)]
  rfl

lemma makeLocalPath_cases (root p : Str) (w : List Str) (hr : wfc root)
    (hw : cleanGo p = '/' :: joinParts w) (hwf : wfComps w) :
    makeLocalPath root p = joinParts (root :: w) ∨
      makeLocalPath root p = joinParts (root :: (w ++ [indexHtml])) := by
  have hjoin : join2 root (cleanGo p) = joinParts (root :: w) := by
    cases w with
    | nil =>
      rw [hw]
      exact join2_root_slash hr
    | cons q qs =>
      rw [hw]
      exact join2_wf_root hr hwf (by simp)
  have hwrl : wfComps (root :: w) := wfComps_cons hr hwf
  have hidx : join2 (joinParts (root :: w)) indexHtml =
      joinParts (root :: (w ++ [indexHtml])) := by
    have h3 := @join2_jp (root :: w) [indexHtml] hwrl
      (by
        intro q hq
        simp only [List.mem_singleton] at hq
        exact hq ▸ wfc_indexHtml) (by simp) (by simp)
    rw [show joinParts [indexHtml] = indexHtml from rfl] at h3
    rw [h3]
    rfl
  unfold makeLocalPath
  by_cases hc : p = [] ∨ p.getLast? = some '/' ∨
      extGo (join2 root (cleanGo p)) = []
  · right
    rw [if_pos hc, hjoin, hidx]
  · left
    rw [if_neg hc, hjoin]

/-- counterexample for claim C6.  Two distinct URLs on the mirror host
that differ only in their query string serialize to distinct URL strings
(so the visited set fetches both), yet the Path Mapper reads only the
URL path and maps both to the same local file; the paths are identical,
so this aliasing is not the index-file collapsing the claim excepts. -/
theorem distinct_urls_same_local_file :
    c6u1 ≠ c6u2 ∧ c6u1.host = c6u2.host ∧ urlString c6u1 ≠ urlString c6u2 ∧
      c6u1.path = c6u2.path ∧
      makeLocalPath cexHost c6u1.path = makeLocalPath cexHost c6u2.path := by
  decide

/-- theorem for claim C6 as amended.  Distinctness of local files is
guaranteed at the granularity of cleaned URL paths: for two URLs whose
cleaned paths are rooted with well-formed components (the bare slash,
whose component list is empty, included), equal Path Mapper outputs
force either equal cleaned paths or the index-file collapse, the
component list of one path extending that of the other by the single
component index.html; the pair slash and slash-index.html is such a
collapse.  URLs differing only in scheme, query, or fragment have the
very same path and therefore the same local file, as the
counterexample exhibits. -/
theorem local_paths_inj_up_to_index (root p1 p2 : Str) (w1 w2 : List Str)
    (hr : wfc root)
    (h1 : cleanGo p1 = '/' :: joinParts w1) (hw1 : wfComps w1)
    (h2 : cleanGo p2 = '/' :: joinParts w2) (hw2 : wfComps w2)
    (heq : makeLocalPath root p1 = makeLocalPath root p2) :
    cleanGo p1 = cleanGo p2 ∨ w1 ++ [indexHtml] = w2 ∨ w2 ++ [indexHtml] = w1 := by
  have hpairs1 : wfComps (root :: w1) := wfComps_cons hr hw1
  have hpairs2 : wfComps (root :: w2) := wfComps_cons hr hw2
  have hpairs1x : wfComps (root :: (w1 ++ [indexHtml])) :=
    wfComps_cons hr (wfComps_append hw1 (by
      intro q hq
      simp only [List.mem_singleton] at hq
      exact hq ▸ wfc_indexHtml))
  have hpairs2x : wfComps (root :: (w2 ++ [indexHtml])) :=
    wfComps_cons hr (wfComps_append hw2 (by
      intro q hq
      simp only [List.mem_singleton] at hq
      exact hq ▸ wfc_indexHtml))
  have hpair : ∀ {l : List Str}, wfComps l → ∀ p ∈ l, p ≠ [] ∧ '/' ∉ p :=
    fun hl p hp => ⟨(hl p hp).1, (hl p hp).2.1⟩
  rcases makeLocalPath_cases root p1 w1 hr h1 hw1 with e1 | e1 <;>
    rcases makeLocalPath_cases root p2 w2 hr h2 hw2 with e2 | e2
  · have h3 := joinParts_inj (hpair hpairs1) (hpair hpairs2) (e1 ▸ e2 ▸ heq)
    have h4 : w1 = w2 := (List.cons.injEq _ _ _ _).mp h3 |>.2
    left
    rw [h1, h2, h4]
  · have h3 := joinParts_inj (hpair hpairs1) (hpair hpairs2x) (e1 ▸ e2 ▸ heq)
    have h4 : w1 = w2 ++ [indexHtml] := (List.cons.injEq _ _ _ _).mp h3 |>.2
    right; right
    exact h4.symm
  · have h3 := joinParts_inj (hpair hpairs1x) (hpair hpairs2) (e1 ▸ e2 ▸ heq)
    have h4 : w1 ++ [indexHtml] = w2 := (List.cons.injEq _ _ _ _).mp h3 |>.2
    right; left
    exact h4
  · have h3 := joinParts_inj (hpair hpairs1x) (hpair hpairs2x) (e1 ▸ e2 ▸ heq)
    have h4 : w1 ++ [indexHtml] = w2 ++ [indexHtml] :=
      (List.cons.injEq _ _ _ _).mp h3 |>.2
    have h5 : w1 = w2 := by
      have h6 := congrArg List.reverse h4
      simpa using h6
    left
    rw [h1, h2, h5]

/-- witness for local_paths_inj_up_to_index at the root collapse pair:
the site root, whose cleaned path is the bare slash with an empty
component list, and its explicit index file slash-index.html. -/
theorem local_paths_inj_up_to_index_witness :
    cleanGo ['/'] = cleanGo ('/' :: indexHtml) ∨
      ([] : List Str) ++ [indexHtml] = [indexHtml] ∨
      [indexHtml] ++ [indexHtml] = ([] : List Str) :=
  local_paths_inj_up_to_index ['e', '.', 'c'] ['/'] ('/' :: indexHtml)
    [] [indexHtml] (by decide) (by decide) (by decide) (by decide)
    (by decide) (by decide)

lemma renderRel_ne_nil {l : List Str} (hwf : wfComps l) : renderRel l ≠ [] := by
  cases l with
  | nil => decide
  | cons p rest =>
    show joinParts (p :: rest) ≠ []
    exact joinParts_ne_nil _ (by simp) (fun q hq => (hwf q hq).1)

lemma joinParts_ne_dot {l : List Str} (hwf : wfComps l) (hne : l ≠ []) :
    joinParts l ≠ dotPart := by
  cases l with
  | nil => exact absurd rfl hne
  | cons p rest =>
    cases rest with
    | nil => exact (hwf p (List.mem_cons_self _ _)).2.2.1
    | cons q qs =>
      intro h
      have hmem : '/' ∈ joinParts (p :: q :: qs) := by
        rw [joinParts_cons (by simp)]
        exact List.mem_append_right _ (List.mem_cons_self _ _)
      rw [h] at hmem
      simp [dotPart] at hmem

lemma cleanGo_renderRel {l : List Str} (hwf : wfComps l) :
    cleanGo (renderRel l) = renderRel l := by
  cases l with
  | nil => decide
  | cons p rest =>
    show cleanGo (joinParts (p :: rest)) = joinParts (p :: rest)
    exact cleanGo_fixed_unrooted hwf (by simp)

lemma pathComps_renderRel {l : List Str} (hwf : wfComps l) :
    pathComps (renderRel l) = (false, l) := by
  cases l with
  | nil => decide
  | cons p rest =>
    show pathComps (joinParts (p :: rest)) = (false, p :: rest)
    have hp := hwf p (List.mem_cons_self _ _)
    unfold pathComps
    rw [if_neg (joinParts_ne_dot hwf (by simp)),
      if_neg (joinParts_head_ne_slash rest hp.1 hp.2.1),
      splitSlash_joinParts _ (by simp) (fun q hq => (hwf q hq).2.1)]

lemma dropCommon_spec : ∀ (b t : List Str),
    ∃ c, b = c ++ (dropCommon b t).1 ∧ t = c ++ (dropCommon b t).2 := by
  intro b
  induction b with
  | nil =>
    intro t
    exact ⟨[], by simp [dropCommon], by simp [dropCommon]⟩
  | cons a as ih =>
    intro t
    cases t with
    | nil => exact ⟨[], by simp [dropCommon], by simp [dropCommon]⟩
    | cons x xs =>
      by_cases hax : a = x
      · obtain ⟨c, hc1, hc2⟩ := ih xs
        refine ⟨a :: c, ?_, ?_⟩
        · simp only [dropCommon, if_pos hax]
          rw [List.cons_append, ← hc1]
        · simp only [dropCommon, if_pos hax]
          rw [List.cons_append, ← hc2, hax]
      · exact ⟨[], by simp [dropCommon, if_neg hax], by simp [dropCommon, if_neg hax]⟩

lemma join2_renderRel_dot {l : List Str} (hwf : wfComps l) :
    join2 (renderRel l) dotPart = renderRel l := by
  cases l with
  | nil => decide
  | cons p rest =>
    have hne : (p :: rest : List Str) ≠ [] := by simp
    have hp := hwf p (List.mem_cons_self _ _)
    have hjp : joinParts (p :: rest) ≠ [] :=
      joinParts_ne_nil _ hne (fun q hq => (hwf q hq).1)
    show join2 (joinParts (p :: rest)) dotPart = joinParts (p :: rest)
    rw [join2_pos hjp (by decide),
      show joinParts (p :: rest) ++ '/' :: dotPart =
        joinParts ((p :: rest) ++ [dotPart]) from
        (joinParts_append (p :: rest) [dotPart] hne (by simp)).symm]
    have hns : ∀ q ∈ (p :: rest) ++ [dotPart], '/' ∉ q := by
      intro q hq
      rcases List.mem_append.mp hq with h | h
      · exact (hwf q h).2.1
      · simp only [List.mem_singleton] at h
        subst h
        decide
    rw [cleanGo_unrooted
      (joinParts_ne_nil _ (by simp) (by
        intro q hq
        rcases List.mem_append.mp hq with h | h
        · exact (hwf q h).1
        · simp only [List.mem_singleton] at h
          subst h
          decide))
      (by
        rw [show ((p :: rest) ++ [dotPart] : List Str) = p :: (rest ++ [dotPart]) from rfl]
        exact joinParts_head_ne_slash _ hp.1 hp.2.1),
      splitSlash_joinParts _ (by simp) hns]
    have hcore : cleanCore false [] ((p :: rest) ++ [dotPart]) = p :: rest := by
      rw [cleanCore_push_wf (p :: rest) hwf false [] [dotPart]]
      rw [cleanCore_skip_dot]
      show ((p :: rest).reverse ++ []).reverse = p :: rest
      simp
    rw [hcore, if_neg hne]

lemma relGo_eval {b t : Str} {bcl tcl : List Str} (hbt : ¬(b = t))
    (hcb : cleanGo b = b) (hct : cleanGo t = t)
    (hpb : pathComps b = (false, bcl)) (hpt : pathComps t = (false, tcl))
    (hhead : ¬((dropCommon bcl tcl).1.head? = some dotDotPart)) :
    relGo b t = some (joinParts
      (List.replicate (dropCommon bcl tcl).1.length dotDotPart ++
        (dropCommon bcl tcl).2)) := by
  have hpb1 : (pathComps b).1 = false := by rw [hpb]
  have hpb2 : (pathComps b).2 = bcl := by rw [hpb]
  have hpt1 : (pathComps t).1 = false := by rw [hpt]
  have hpt2 : (pathComps t).2 = tcl := by rw [hpt]
  unfold relGo
  rw [hcb, hct, if_neg hbt, hpb1, hpb2, hpt1, hpt2,
    if_neg (by simp : ¬(false ≠ false)), if_neg hhead]

lemma rel_join_roundtrip {bc tc : List Str} (hb : wfComps bc) (ht : wfComps tc) :
    ∃ r, relGo (renderRel bc) (renderRel tc) = some r ∧
      join2 (renderRel bc) r = renderRel tc := by
  by_cases heq : renderRel bc = renderRel tc
  · refine ⟨dotPart, ?_, ?_⟩
    · unfold relGo
      rw [cleanGo_renderRel hb, cleanGo_renderRel ht, if_pos heq]
    · rw [join2_renderRel_dot hb, heq]
  · obtain ⟨c, hc1, hc2⟩ := dropCommon_spec bc tc
    have hwfb2 : wfComps (dropCommon bc tc).1 := by
      intro q hq
      apply hb q
      rw [hc1]
      exact List.mem_append.mpr (Or.inr hq)
    have hwft2 : wfComps (dropCommon bc tc).2 := by
      intro q hq
      apply ht q
      rw [hc2]
      exact List.mem_append.mpr (Or.inr hq)
    have hhead : ¬((dropCommon bc tc).1.head? = some dotDotPart) := by
      cases hb2 : (dropCommon bc tc).1 with
      | nil => simp
      | cons q qs =>
        simp only [List.head?_cons]
        intro h
        have hq : q = dotDotPart := by injection h
        refine (hwfb2 q ?_).2.2.2 hq
        rw [hb2]
        exact List.mem_cons_self _ _
    have hrel := relGo_eval heq (cleanGo_renderRel hb) (cleanGo_renderRel ht)
      (pathComps_renderRel hb) (pathComps_renderRel ht) hhead
    refine ⟨_, hrel, ?_⟩
    cases hbcnil : bc with
    | nil =>
      subst hbcnil
      have hd : dropCommon ([] : List Str) tc = ([], tc) := rfl
      rw [hd] at hc1 hc2 ⊢
      simp only [List.length_nil, List.replicate_zero, List.nil_append]
      cases htcnil : tc with
      | nil =>
        subst htcnil
        exact absurd rfl heq
      | cons x xs =>
        subst htcnil
        have hxne : (x :: xs : List Str) ≠ [] := by simp
        have hjne : joinParts (x :: xs) ≠ [] :=
          joinParts_ne_nil _ hxne (fun q hq => (ht q hq).1)
        show join2 dotPart (joinParts (x :: xs)) = renderRel (x :: xs)
        rw [join2_pos (by decide) hjne,
          show dotPart ++ '/' :: joinParts (x :: xs) =
            joinParts (dotPart :: x :: xs) from
            (joinParts_cons hxne).symm]
        have hns : ∀ q ∈ dotPart :: x :: xs, '/' ∉ q := by
          intro q hq
          rcases List.mem_cons.mp hq with h | h
          · subst h; decide
          · exact (ht q h).2.1
        rw [cleanGo_unrooted
          (joinParts_ne_nil _ (by simp) (by
            intro q hq
            rcases List.mem_cons.mp hq with h | h
            · subst h; decide
            · exact (ht q h).1))
          (joinParts_head_ne_slash _ (by decide) (by decide)),
          splitSlash_joinParts _ (by simp) hns, cleanCore_skip_dot,
          cleanCore_wf_eval ht, if_neg hxne]
        simp [renderRel]
    | cons p ps =>
      subst hbcnil
      have hp := hb p (List.mem_cons_self _ _)
      have hrne : (List.replicate (dropCommon (p :: ps) tc).1.length dotDotPart ++
          (dropCommon (p :: ps) tc).2) ≠ [] := by
        intro h
        obtain ⟨hrep, htc2⟩ := List.append_eq_nil.mp h
        have hbc2 : (dropCommon (p :: ps) tc).1 = [] := by
          have hlen := congrArg List.length hrep
          simp only [List.length_replicate, List.length_nil] at hlen
          exact List.length_eq_zero.mp hlen
        have hbceq : p :: ps = c := by
          conv_lhs => rw [hc1]
          rw [hbc2, List.append_nil]
        have htceq : tc = c := by
          conv_lhs => rw [hc2]
          rw [htc2, List.append_nil]
        apply heq
        rw [hbceq, htceq]
      have hparts_ok : ∀ q ∈ (p :: ps) ++
          (List.replicate (dropCommon (p :: ps) tc).1.length dotDotPart ++
            (dropCommon (p :: ps) tc).2), q ≠ [] ∧ '/' ∉ q := by
        intro q hq
        rcases List.mem_append.mp hq with h | h
        · exact ⟨(hb q h).1, (hb q h).2.1⟩
        · rcases List.mem_append.mp h with h2 | h2
          · have : q = dotDotPart := List.eq_of_mem_replicate h2
            subst this
            exact ⟨by decide, by decide⟩
          · exact ⟨(hwft2 q h2).1, (hwft2 q h2).2.1⟩
      have hjrne : joinParts (List.replicate (dropCommon (p :: ps) tc).1.length
          dotDotPart ++ (dropCommon (p :: ps) tc).2) ≠ [] :=
        joinParts_ne_nil _ hrne (fun q hq =>
          (hparts_ok q (List.mem_append.mpr (Or.inr hq))).1)
      have hbne : joinParts (p :: ps) ≠ [] :=
        joinParts_ne_nil _ (by simp) (fun q hq => (hb q hq).1)
      show join2 (renderRel (p :: ps)) _ = renderRel tc
      rw [show renderRel (p :: ps) = joinParts (p :: ps) from by simp [renderRel],
        join2_pos hbne hjrne,
        show joinParts (p :: ps) ++ '/' :: joinParts
            (List.replicate (dropCommon (p :: ps) tc).1.length dotDotPart ++
              (dropCommon (p :: ps) tc).2) =
          joinParts ((p :: ps) ++
            (List.replicate (dropCommon (p :: ps) tc).1.length dotDotPart ++
              (dropCommon (p :: ps) tc).2)) from
          (joinParts_append _ _ (by simp) hrne).symm]
      rw [cleanGo_unrooted
        (joinParts_ne_nil _ (by simp) (fun q hq => (hparts_ok q hq).1))
        (joinParts_head_ne_slash _ hp.1 hp.2.1),
        splitSlash_joinParts _ (by simp) (fun q hq => (hparts_ok q hq).2)]
      have hcore : cleanCore false []
          ((p :: ps) ++
            (List.replicate (dropCommon (p :: ps) tc).1.length dotDotPart ++
              (dropCommon (p :: ps) tc).2)) = tc := by
        have hrev : (p :: ps).reverse =
            (dropCommon (p :: ps) tc).1.reverse ++ c.reverse := by
          conv_lhs => rw [hc1]
          rw [List.reverse_append]
        rw [cleanCore_push_wf (p :: ps) hb false [] _, List.append_nil, hrev,
          show (dropCommon (p :: ps) tc).1.length =
            (dropCommon (p :: ps) tc).1.reverse.length from
            (List.length_reverse _).symm,
          cleanCore_pop _ (by
            intro q hq
            exact hwfb2 q (List.mem_reverse.mp hq)) c.reverse _]
        have h9 := cleanCore_push_wf (dropCommon (p :: ps) tc).2 hwft2 false
          c.reverse []
        simp only [List.append_nil] at h9
        rw [h9]
        show ((dropCommon (p :: ps) tc).2.reverse ++ c.reverse).reverse = tc
        rw [List.reverse_append, List.reverse_reverse, List.reverse_reverse]
        exact hc2.symm
      rw [hcore]
      unfold renderRel
      rfl

/-- theorem for claim C5.  For a document element whose recognized
attribute key first occurs at a same-host link value, the rewriter
replaces that value with the Rel-path from the own local
directory to the Path Mapper output for the target URL, and joining the
document directory with the rewritten value reproduces exactly
the local path the Path Mapper independently computes for that target
URL.  The directory and target are assumed to be (as every path the
crawler produces is) unrooted well-formed component paths. -/
theorem rewrite_attr_resolves_to_target (resolve : Str → Option UrlR)
    (host rootDir curr : Str) (doc : Doc) (i : Nat) (tag ak v : Str)
    (pre post : List (Str × Str)) (abs : UrlR) (bc tc : List Str)
    (he : doc[i]? = some ⟨tag, pre ++ (ak, v) :: post⟩)
    (hkey : rewriteTagKey tag = some ak)
    (hpre : ∀ q ∈ pre, q.1 ≠ ak)
    (hres : resolve v = some abs)
    (hhost : abs.host = host)
    (hb : dirGo curr = renderRel bc) (hwb : wfComps bc)
    (ht : makeLocalPath rootDir abs.path = renderRel tc) (hwt : wfComps tc) :
    ∃ rp, (rewriteLinks resolve host rootDir curr doc)[i]? =
        some ⟨tag, pre ++ (ak, rp) :: post⟩ ∧
      join2 (dirGo curr) rp = makeLocalPath rootDir abs.path := by
  obtain ⟨r, hr1, hr2⟩ := rel_join_roundtrip hwb hwt
  have hrel : relGo (dirGo curr) (makeLocalPath rootDir abs.path) = some r := by
    rw [hb, ht]
    exact hr1
  have hone : rewriteOne resolve host rootDir curr v = some r := by
    simp [rewriteOne, hres, hhost, hrel]
  refine ⟨r, ?_, ?_⟩
  · simp only [rewriteLinks, List.getElem?_map, he, Option.map_some', rewriteElem, hkey]
    rw [rewriteAttrs_first_match hone pre post hpre]
  · rw [hb, ht]
    exact hr2

/-- witness for rewrite_attr_resolves_to_target: inside the page saved
at h/a/index.html, the href /b.c is rewritten and rejoins to the target
local path h/b.c. -/
theorem rewrite_attr_resolves_to_target_witness :
    ∃ rp, (rewriteLinks c5Resolve cexHost cexHost c5Curr
        [⟨strLink, [(strHref, c5Val)]⟩])[0]? =
        some ⟨strLink, [] ++ (strHref, rp) :: []⟩ ∧
      join2 (dirGo c5Curr) rp = makeLocalPath cexHost c5Abs.path :=
  rewrite_attr_resolves_to_target c5Resolve cexHost cexHost c5Curr
    [⟨strLink, [(strHref, c5Val)]⟩] 0 strLink strHref c5Val [] [] c5Abs
    [['h'], ['a']] [['h'], ['b', '.', 'c']]
    rfl (by decide) (by simp) rfl rfl (by decide) (by decide) (by decide)
    (by decide)
